import Mathlib

/-!
Shallow embedding of `src/mini-sql/src/page/b_plus_tree_leaf_page.cpp`
(the B+ tree leaf page component).

Modelling choices:
* A page's pair region together with its `size_` header field is modelled
  as a `List (α × β)` of exactly `size` live pairs; bytes beyond `size`
  in the C++ buffer are dead storage and are not represented.
* Keys (`GenericKey*` blobs) are an abstract type `α` and the external
  `KeyManager` comparator is an abstract total order, modelled by a
  `LinearOrder α` instance: `KM.CompareKeys(a,b) <= 0` becomes `a ≤ b`,
  `== 0` becomes `a = b`.
* Row locators (`RowId`) are an abstract type `β`, copied by value.
* C++ `int` header fields (`page_id_`, `parent_page_id_`, `key_size_`,
  `max_size_`, `next_page_id_`) are modelled as `Int`.
* Out-of-range reads through `KeyAt`/`ValueAt` (which the C++ never
  performs on in-contract inputs) return `default`.
-/

/-- Page type tag (`IndexPageType` in the source); this component only
ever sets `LEAF_PAGE`. -/
inductive IndexPageType where
  | leafPage
  | internalPage
  deriving DecidableEq, Repr

/-- Modelled from the spec: the sentinel "none" value for page ids
(`INVALID_PAGE_ID` from the headers, which are not part of the given
source); the spec calls it "a sentinel 'none' value". Its concrete value
is irrelevant to the claims; we fix `-1`. -/
def INVALID_PAGE_ID : Int := -1

/-- The leaf page of the B+ tree: header fields plus the sorted pair
region.  `size` is `pairs.length`. -/
structure LeafPage (α β : Type) where
  pageType : IndexPageType
  pageId : Int
  parentPageId : Int
  keySize : Int
  maxSize : Int
  nextPageId : Int
  pairs : List (α × β)
  deriving DecidableEq

/-- Embeds `GetSize()` — the number of live pairs. -/
def LeafPage.size {α β : Type} (p : LeafPage α β) : Int :=
  p.pairs.length

/-- Embeds `LeafPage::Init(page_id, parent_id, key_size, max_size)`: sets page
type to leaf, size to 0 (empty pair list), ids and sizing fields, and
`next_page_id` to `INVALID_PAGE_ID`. -/
def LeafPage.Init {α β : Type} (pageId parentId keySize maxSize : Int) : LeafPage α β :=
  { pageType := .leafPage
    pageId := pageId
    parentPageId := parentId
    keySize := keySize
    maxSize := maxSize
    nextPageId := INVALID_PAGE_ID
    pairs := [] }

/-- Embeds `LeafPage::KeyAt(index)` — the key stored at `index`. -/
def LeafPage.keyAt {α β : Type} [Inhabited α] [Inhabited β]
    (p : LeafPage α β) (index : Int) : α :=
  (p.pairs.getD index.toNat default).1

/-- Embeds `LeafPage::ValueAt(index)` — the value stored at `index`. -/
def LeafPage.valueAt {α β : Type} [Inhabited α] [Inhabited β]
    (p : LeafPage α β) (index : Int) : β :=
  (p.pairs.getD index.toNat default).2

/-- The key column of the page, in storage order. -/
def LeafPage.keys {α β : Type} (p : LeafPage α β) : List α :=
  p.pairs.map Prod.fst

/-- The loop of `LeafPage::KeyIndex`: binary search with `int` bounds
`left`/`right`, `mid = left + (right - left) / 2`, narrowing to the left
half when `CompareKeys(key, KeyAt(mid)) <= 0`.  The C++ `while` loop is
embedded with a fuel argument; each iteration shrinks `right + 1 - left`
by at least one, so any fuel `≥ right + 1 - left` computes the loop's
result. -/
def LeafPage.keyIndexGo {α β : Type} [LinearOrder α] [Inhabited α] [Inhabited β]
    (p : LeafPage α β) (key : α) : Nat → Int → Int → Int
  | 0, left, _ => left
  | fuel + 1, left, right =>
    if left ≤ right then
      let mid := left + (right - left) / 2
      if key ≤ p.keyAt mid then
        p.keyIndexGo key fuel left (mid - 1)
      else
        p.keyIndexGo key fuel (mid + 1) right
    else left

/-- Embeds `LeafPage::KeyIndex(key, KM)`: binary search for the first index `i`
with `pairs_[i].first >= key`, started with `left = 0`,
`right = GetSize() - 1`.  Fuel `pairs.length` bounds the loop's
iteration count. -/
def LeafPage.KeyIndex {α β : Type} [LinearOrder α] [Inhabited α] [Inhabited β]
    (p : LeafPage α β) (key : α) : Int :=
  p.keyIndexGo key p.pairs.length 0 (p.size - 1)

/-- Embeds `LeafPage::Insert(key, value, KM)`: computes `KeyIndex`, shifts every
pair at or after that index one slot right (`for i = size; i > index; --i`),
writes the new pair at the freed slot and increments size; returns the new
size. -/
def LeafPage.Insert {α β : Type} [LinearOrder α] [Inhabited α] [Inhabited β]
    (p : LeafPage α β) (key : α) (value : β) : LeafPage α β × Int :=
  let index := (p.KeyIndex key).toNat
  let p' := { p with pairs := p.pairs.take index ++ (key, value) :: p.pairs.drop index }
  (p', p'.size)

/-- Embeds `LeafPage::Lookup(key, value, KM)`: computes `KeyIndex`; when the index
is in bounds and its key compares equal to the search key, yields the value
there (`some`), else signals not-found (`none`). -/
def LeafPage.Lookup {α β : Type} [LinearOrder α] [Inhabited α] [Inhabited β]
    (p : LeafPage α β) (key : α) : Option β :=
  let index := p.KeyIndex key
  if index < p.size ∧ key = p.keyAt index then
    some (p.valueAt index)
  else
    none

/-- Embeds `LeafPage::RemoveAndDeleteRecord(key, KM)`: computes `KeyIndex`; when
found, shifts every subsequent pair one slot left
(`for i = index; i < size - 1; ++i`) and decrements size; otherwise leaves
the page untouched.  Returns the resulting size either way. -/
def LeafPage.RemoveAndDeleteRecord {α β : Type} [LinearOrder α] [Inhabited α] [Inhabited β]
    (p : LeafPage α β) (key : α) : LeafPage α β × Int :=
  let index := p.KeyIndex key
  if index < p.size ∧ key = p.keyAt index then
    let p' := { p with
      pairs := p.pairs.take index.toNat ++ p.pairs.drop (index.toNat + 1) }
    (p', p'.size)
  else
    (p, p.size)

/-- Embeds `LeafPage::CopyNFrom(src, size)`: bulk-appends a block of pairs at the
end of the pair region and increases size accordingly. -/
def LeafPage.CopyNFrom {α β : Type} (p : LeafPage α β) (src : List (α × β)) : LeafPage α β :=
  { p with pairs := p.pairs ++ src }

/-- Embeds `LeafPage::MoveHalfTo(recipient)`: with `total = GetSize()` and
`move_count = total / 2`, bulk-copies the last `move_count` pairs
(`PairPtrAt(total - move_count)`) into the recipient via `CopyNFrom` and
shrinks this page to `total - move_count` pairs.  Returns
(this page after, recipient after). -/
def LeafPage.MoveHalfTo {α β : Type} (p recipient : LeafPage α β) :
    LeafPage α β × LeafPage α β :=
  let total := p.pairs.length
  let moveCount := total / 2
  let recipient' := recipient.CopyNFrom (p.pairs.drop (total - moveCount))
  let p' := { p with pairs := p.pairs.take (total - moveCount) }
  (p', recipient')

/-- Embeds `LeafPage::MoveAllTo(recipient)`: bulk-appends all of this page's pairs
to the recipient, copies this page's `next_page_id` into the recipient, and
sets this page's size to 0.  Returns (this page after, recipient after). -/
def LeafPage.MoveAllTo {α β : Type} (p recipient : LeafPage α β) :
    LeafPage α β × LeafPage α β :=
  let recipient' := { recipient.CopyNFrom p.pairs with nextPageId := p.nextPageId }
  let p' := { p with pairs := [] }
  (p', recipient')

/-- Embeds `LeafPage::CopyLastFrom(key, value)`: appends one pair at the end. -/
def LeafPage.CopyLastFrom {α β : Type} (p : LeafPage α β) (key : α) (value : β) :
    LeafPage α β :=
  { p with pairs := p.pairs ++ [(key, value)] }

/-- Embeds `LeafPage::CopyFirstFrom(key, value)`: shifts every pair one slot right
and writes the new pair at index 0 (a prepend). -/
def LeafPage.CopyFirstFrom {α β : Type} (p : LeafPage α β) (key : α) (value : β) :
    LeafPage α β :=
  { p with pairs := (key, value) :: p.pairs }

/-- Embeds `LeafPage::MoveFirstToEndOf(recipient)`: appends this page's pair 0 to
the recipient via `CopyLastFrom`, then shifts this page's remaining pairs
one slot left and decrements size.  Returns (this page after, recipient
after). -/
def LeafPage.MoveFirstToEndOf {α β : Type} [Inhabited α] [Inhabited β]
    (p recipient : LeafPage α β) : LeafPage α β × LeafPage α β :=
  let recipient' := recipient.CopyLastFrom (p.keyAt 0) (p.valueAt 0)
  let p' := { p with pairs := p.pairs.drop 1 }
  (p', recipient')

/-- Embeds `LeafPage::MoveLastToFrontOf(recipient)`: prepends this page's last pair
to the recipient via `CopyFirstFrom`, then decrements this page's size.
Returns (this page after, recipient after). -/
def LeafPage.MoveLastToFrontOf {α β : Type} [Inhabited α] [Inhabited β]
    (p recipient : LeafPage α β) : LeafPage α β × LeafPage α β :=
  let recipient' := recipient.CopyFirstFrom (p.keyAt (p.size - 1)) (p.valueAt (p.size - 1))
  let p' := { p with pairs := p.pairs.dropLast }
  (p', recipient')

/-- The page's sortedness invariant: keys strictly ascending in the
comparator order (which also rules out duplicate keys). -/
def LeafPage.SortedPage {α β : Type} [LinearOrder α] (p : LeafPage α β) : Prop :=
  List.Sorted (· < ·) p.keys

/-- One mutating page operation, for stating the multi-operation
invariant claims. -/
inductive PageOp (α β : Type) where
  | insert (key : α) (value : β)
  | remove (key : α)

/-- Run one operation, keeping the resulting page. -/
def LeafPage.applyOp {α β : Type} [LinearOrder α] [Inhabited α] [Inhabited β]
    (p : LeafPage α β) : PageOp α β → LeafPage α β
  | .insert k v => (p.Insert k v).1
  | .remove k => (p.RemoveAndDeleteRecord k).1

/-- Run a sequence of operations. -/
def LeafPage.applyOps {α β : Type} [LinearOrder α] [Inhabited α] [Inhabited β]
    (p : LeafPage α β) (ops : List (PageOp α β)) : LeafPage α β :=
  ops.foldl LeafPage.applyOp p

/-- The side condition of the claimed invariant: every `insert` in the
sequence is performed while `size < max_size`. -/
def LeafPage.guardedRun {α β : Type} [LinearOrder α] [Inhabited α] [Inhabited β]
    (p : LeafPage α β) : List (PageOp α β) → Prop
  | [] => True
  | .insert k v :: ops =>
      p.size < p.maxSize ∧ (p.applyOp (.insert k v)).guardedRun ops
  | .remove k :: ops => (p.applyOp (.remove k)).guardedRun ops

/-- The strengthened side condition: every `insert` is performed while
`size < max_size` and with a key not currently present in the page. -/
def LeafPage.freshGuardedRun {α β : Type} [LinearOrder α] [Inhabited α] [Inhabited β]
    (p : LeafPage α β) : List (PageOp α β) → Prop
  | [] => True
  | .insert k v :: ops =>
      p.size < p.maxSize ∧ k ∉ p.keys ∧ (p.applyOp (.insert k v)).freshGuardedRun ops
  | .remove k :: ops => (p.applyOp (.remove k)).freshGuardedRun ops

/-- Modelled from the spec: after a split the tree driver (outside the
given source) is "responsible for ... splicing `recipient` into the
`next_page_id` chain immediately after this page": the recipient takes
this page's old successor and this page's `next_page_id` is pointed at
the recipient. -/
def LeafPage.spliceAfterSplit {α β : Type} (left right : LeafPage α β) :
    LeafPage α β × LeafPage α β :=
  let right' := { right with nextPageId := left.nextPageId }
  let left' := { left with nextPageId := right.pageId }
  (left', right')

theorem LeafPage.keys_length {α β : Type} (p : LeafPage α β) :
    p.keys.length = p.pairs.length := by
  simp [LeafPage.keys]

theorem LeafPage.keyAt_natCast {α β : Type} [Inhabited α] [Inhabited β]
    (p : LeafPage α β) (j : Nat) :
    p.keyAt (j : Int) = (p.pairs.getD j default).1 := by
  simp [LeafPage.keyAt]

theorem LeafPage.keys_getD {α β : Type} [Inhabited α] [Inhabited β]
    (p : LeafPage α β) (j : Nat) (hj : j < p.pairs.length) :
    p.keys.getD j default = p.keyAt j := by
  have hj' : j < p.keys.length := by rw [p.keys_length]; exact hj
  rw [List.getD_eq_getElem _ _ hj', p.keyAt_natCast, List.getD_eq_getElem _ _ hj]
  simp [LeafPage.keys]

theorem LeafPage.sorted_keyAt_lt {α β : Type} [LinearOrder α] [Inhabited α] [Inhabited β]
    {p : LeafPage α β} (hs : p.SortedPage) {i j : Nat}
    (hij : i < j) (hj : j < p.pairs.length) :
    p.keyAt i < p.keyAt j := by
  have hj' : j < p.keys.length := by rw [p.keys_length]; exact hj
  have hi' : i < p.keys.length := by omega
  have h := List.pairwise_iff_get.mp hs ⟨i, hi'⟩ ⟨j, hj'⟩ (Fin.mk_lt_mk.mpr hij)
  rw [List.get_eq_getElem, List.get_eq_getElem] at h
  rw [← List.getD_eq_getElem p.keys default hi', ← List.getD_eq_getElem p.keys default hj'] at h
  rwa [p.keys_getD i (by omega), p.keys_getD j hj] at h

theorem LeafPage.sorted_keyAt_le {α β : Type} [LinearOrder α] [Inhabited α] [Inhabited β]
    {p : LeafPage α β} (hs : p.SortedPage) {i j : Nat}
    (hij : i ≤ j) (hj : j < p.pairs.length) :
    p.keyAt i ≤ p.keyAt j := by
  rcases Nat.eq_or_lt_of_le hij with h | h
  · rw [h]
  · exact le_of_lt (LeafPage.sorted_keyAt_lt hs h hj)

theorem LeafPage.keyIndexGo_spec {α β : Type} [LinearOrder α] [Inhabited α] [Inhabited β]
    (p : LeafPage α β) (key : α) (hs : p.SortedPage) :
    ∀ (fuel : Nat) (left right : Int),
      0 ≤ left → left ≤ right + 1 → right < p.size →
      right + 1 - left ≤ (fuel : Int) →
      (∀ j : Nat, (j : Int) < left → p.keyAt j < key) →
      (∀ j : Nat, right < (j : Int) → j < p.pairs.length → key ≤ p.keyAt j) →
      0 ≤ p.keyIndexGo key fuel left right ∧
      p.keyIndexGo key fuel left right ≤ p.size ∧
      (∀ j : Nat, (j : Int) < p.keyIndexGo key fuel left right → p.keyAt j < key) ∧
      (p.keyIndexGo key fuel left right < p.size →
        key ≤ p.keyAt (p.keyIndexGo key fuel left right)) := by
  have hsize : p.size = (p.pairs.length : Int) := rfl
  intro fuel
  induction fuel with
  | zero =>
    intro left right h0 hlr hrs hfuel hlo hhi
    have hleft : left = right + 1 := by omega
    simp only [LeafPage.keyIndexGo]
    refine ⟨h0, by omega, hlo, ?_⟩
    intro hres
    have hjlen : left.toNat < p.pairs.length := by omega
    have h := hhi left.toNat (by omega) hjlen
    rwa [Int.toNat_of_nonneg h0] at h
  | succ fuel ih =>
    intro left right h0 hlr hrs hfuel hlo hhi
    simp only [LeafPage.keyIndexGo]
    by_cases hcond : left ≤ right
    · simp only [if_pos hcond]
      have hdiv0 : 0 ≤ (right - left) / 2 := Int.ediv_nonneg (by omega) (by norm_num)
      have hdivle : (right - left) / 2 ≤ right - left := Int.ediv_le_self _ (by omega)
      set mid := left + (right - left) / 2 with hmid
      have hmid_ge : left ≤ mid := by omega
      have hmid_le : mid ≤ right := by omega
      have hmid0 : 0 ≤ mid := by omega
      have hmidlen : mid.toNat < p.pairs.length := by omega
      have hmidcast : ((mid.toNat : Nat) : Int) = mid := Int.toNat_of_nonneg hmid0
      by_cases hcmp : key ≤ p.keyAt mid
      · simp only [if_pos hcmp]
        refine ih left (mid - 1) h0 (by omega) (by omega) (by omega) hlo ?_
        intro j hj1 hj2
        have hj3 : mid.toNat ≤ j := by omega
        have h1 : p.keyAt mid.toNat ≤ p.keyAt j := LeafPage.sorted_keyAt_le hs hj3 hj2
        rw [hmidcast] at h1
        exact le_trans hcmp h1
      · simp only [if_neg hcmp]
        push_neg at hcmp
        refine ih (mid + 1) right (by omega) (by omega) hrs (by omega) ?_ hhi
        intro j hj1
        have hj2 : j ≤ mid.toNat := by omega
        have hjlen : j < p.pairs.length := by omega
        have h1 : p.keyAt j ≤ p.keyAt mid.toNat :=
          LeafPage.sorted_keyAt_le hs hj2 hmidlen
        rw [hmidcast] at h1
        exact lt_of_le_of_lt h1 hcmp
    · simp only [if_neg hcond]
      have hleft : left = right + 1 := by omega
      refine ⟨h0, by omega, hlo, ?_⟩
      intro hres
      have hjlen : left.toNat < p.pairs.length := by omega
      have h := hhi left.toNat (by omega) hjlen
      rwa [Int.toNat_of_nonneg h0] at h

theorem sorted_getD_lt {γ : Type} [LinearOrder γ] [Inhabited γ] {K : List γ}
    (hs : List.Sorted (· < ·) K) {i j : Nat} (hij : i < j) (hj : j < K.length) :
    K.getD i default < K.getD j default := by
  rw [List.getD_eq_getElem _ _ (by omega), List.getD_eq_getElem _ _ hj]
  have h := List.pairwise_iff_get.mp hs ⟨i, by omega⟩ ⟨j, hj⟩ (Fin.mk_lt_mk.mpr hij)
  simpa [List.get_eq_getElem] using h

theorem sorted_getD_le {γ : Type} [LinearOrder γ] [Inhabited γ] {K : List γ}
    (hs : List.Sorted (· < ·) K) {i j : Nat} (hij : i ≤ j) (hj : j < K.length) :
    K.getD i default ≤ K.getD j default := by
  rcases Nat.eq_or_lt_of_le hij with h | h
  · rw [h]
  · exact le_of_lt (sorted_getD_lt hs h hj)

theorem sorted_take_lt_drop {γ : Type} [LinearOrder γ] {K : List γ}
    (hs : List.Sorted (· < ·) K) (k : Nat) :
    ∀ a ∈ K.take k, ∀ b ∈ K.drop k, a < b := by
  have h : List.Pairwise (· < ·) (K.take k ++ K.drop k) := by
    rw [List.take_append_drop]; exact hs
  exact (List.pairwise_append.mp h).2.2

theorem eraseSlot_sublist {γ : Type} (l : List γ) (i : Nat) :
    (l.take i ++ l.drop (i + 1)).Sublist l := by
  conv_rhs => rw [← List.take_append_drop i l]
  refine List.Sublist.append_left ?_ (l.take i)
  rw [← List.tail_drop]
  exact List.tail_sublist _

theorem orderedInsert_eq_take_append_drop {γ : Type} [Inhabited γ]
    (r : γ → γ → Prop) [DecidableRel r] (a : γ) :
    ∀ (l : List γ) (k : Nat), k ≤ l.length →
      (∀ j : Nat, j < k → ¬ r a (l.getD j default)) →
      (k < l.length → r a (l.getD k default)) →
      List.orderedInsert r a l = l.take k ++ a :: l.drop k := by
  intro l
  induction l with
  | nil =>
    intro k hk _ _
    have : k = 0 := by simpa using hk
    subst this
    simp [List.orderedInsert]
  | cons b t ih =>
    intro k hk hbefore hat
    cases k with
    | zero =>
      have hr : r a b := by simpa using hat (by simp)
      simp [List.orderedInsert, if_pos hr]
    | succ k' =>
      have hnr : ¬ r a b := by simpa using hbefore 0 (Nat.succ_pos _)
      rw [List.orderedInsert, if_neg hnr, List.take_succ_cons, List.drop_succ_cons,
        List.cons_append]
      congr 1
      refine ih k' (by simpa using hk) ?_ ?_
      · intro j hj
        have := hbefore (j + 1) (by omega)
        simpa [List.getD_cons_succ] using this
      · intro hk'
        have := hat (by simpa using Nat.succ_lt_succ hk')
        simpa [List.getD_cons_succ] using this

theorem sorted_insert_list {γ : Type} [LinearOrder γ] [Inhabited γ]
    (K : List γ) (key : γ) (k : Nat) (hs : List.Sorted (· < ·) K) (hk : k ≤ K.length)
    (hbefore : ∀ j : Nat, j < k → K.getD j default < key)
    (hat : k < K.length → key ≤ K.getD k default)
    (hfresh : key ∉ K) :
    List.Sorted (· < ·) (K.take k ++ key :: K.drop k) := by
  have hkey_lt : ∀ b ∈ K.drop k, key < b := by
    intro b hb
    obtain ⟨i, hi, rfl⟩ := List.mem_iff_getElem.mp hb
    rw [List.getElem_drop]
    have hlen : k + i < K.length := by
      have := List.length_drop k K ▸ hi
      omega
    have h1 : key ≤ K.getD k default := hat (by omega)
    have h2 : K.getD k default ≤ K.getD (k + i) default :=
      sorted_getD_le hs (Nat.le_add_right _ _) hlen
    have h3 : key ≠ K[k + i] := by
      intro he
      exact hfresh (he ▸ List.getElem_mem hlen)
    have h4 : key ≤ K[k + i] := by
      rw [← List.getD_eq_getElem K default hlen]
      exact le_trans h1 h2
    exact lt_of_le_of_ne h4 h3
  have htake_lt : ∀ a ∈ K.take k, a < key := by
    intro a ha
    obtain ⟨i, hi, rfl⟩ := List.mem_iff_getElem.mp ha
    have hik : i < k := by
      have := List.length_take k K ▸ hi
      omega
    have hilen : i < K.length := by
      have := List.length_take k K ▸ hi
      omega
    rw [List.getElem_take]
    rw [← List.getD_eq_getElem K default hilen]
    exact hbefore i hik
  refine List.pairwise_append.mpr ⟨?_, ?_, ?_⟩
  · exact List.Pairwise.sublist (List.take_sublist _ _) hs
  · refine List.pairwise_cons.mpr ⟨hkey_lt, ?_⟩
    exact List.Pairwise.sublist (List.drop_sublist _ _) hs
  · intro a ha b hb
    rcases List.mem_cons.mp hb with rfl | hb'
    · exact htake_lt a ha
    · exact lt_trans (htake_lt a ha) (hkey_lt b hb')

instance {α β : Type} [LinearOrder α] (p : LeafPage α β) : Decidable p.SortedPage :=
  inferInstanceAs (Decidable (List.Sorted (· < ·) p.keys))

/-- A concrete sorted three-pair page used by the witness theorems. -/
def samplePage : LeafPage Int Int :=
  { pageType := .leafPage
    pageId := 1
    parentPageId := -1
    keySize := 4
    maxSize := 4
    nextPageId := -1
    pairs := [(10, 100), (20, 200), (30, 300)] }

/-- The characterization of `KeyIndex` on a sorted page, shared by the
proofs about the derived operations. -/
theorem LeafPage.keyIndex_props {α β : Type} [LinearOrder α] [Inhabited α] [Inhabited β]
    (p : LeafPage α β) (key : α) (hs : p.SortedPage) :
    0 ≤ p.KeyIndex key ∧ p.KeyIndex key ≤ p.size ∧
    (∀ j : Nat, (j : Int) < p.KeyIndex key → p.keyAt j < key) ∧
    (p.KeyIndex key < p.size → key ≤ p.keyAt (p.KeyIndex key)) := by
  have hsize : p.size = (p.pairs.length : Int) := rfl
  have h := p.keyIndexGo_spec key hs p.pairs.length 0 (p.size - 1)
    le_rfl (by rw [hsize]; omega) (by rw [hsize]; omega) (by rw [hsize]; omega)
    (by intro j hj; omega)
    (by
      intro j hj1 hj2
      rw [hsize] at hj1
      omega)
  simpa [LeafPage.KeyIndex] using h

/-- C2: on a page whose pairs are sorted ascending with no duplicates,
`KeyIndex(key)` returns the smallest index `i` in `[0, size]` such that the
pair at `i` (if any) has a key `≥` the search key: every strictly smaller
index holds a key `<` the search key (hence, among equal keys, the leftmost
position is returned), and `i` itself (when in bounds) holds a key `≥` the
search key.  On an empty page the two bounds force the result `0`. -/
theorem LeafPage.KeyIndex_spec {α β : Type} [LinearOrder α] [Inhabited α] [Inhabited β]
    (p : LeafPage α β) (key : α) (hs : p.SortedPage) :
    0 ≤ p.KeyIndex key ∧ p.KeyIndex key ≤ p.size ∧
    (∀ j : Nat, (j : Int) < p.KeyIndex key → p.keyAt j < key) ∧
    (p.KeyIndex key < p.size → key ≤ p.keyAt (p.KeyIndex key)) :=
  p.keyIndex_props key hs

theorem KeyIndex_spec_witness :
    samplePage.SortedPage ∧
    (0 ≤ samplePage.KeyIndex 25 ∧ samplePage.KeyIndex 25 ≤ samplePage.size ∧
      (∀ j : Nat, (j : Int) < samplePage.KeyIndex 25 → samplePage.keyAt j < 25) ∧
      (samplePage.KeyIndex 25 < samplePage.size →
        (25 : Int) ≤ samplePage.keyAt (samplePage.KeyIndex 25))) :=
  ⟨by decide, LeafPage.KeyIndex_spec samplePage 25 (by decide)⟩

theorem LeafPage.Insert_sorted {α β : Type} [LinearOrder α] [Inhabited α] [Inhabited β]
    (p : LeafPage α β) (key : α) (value : β) (hs : p.SortedPage) (hfresh : key ∉ p.keys) :
    ((p.Insert key value).1).SortedPage := by
  obtain ⟨h0, hle, hlo, hhi⟩ := p.keyIndex_props key hs
  have hsize : p.size = (p.pairs.length : Int) := rfl
  have hkcast : (((p.KeyIndex key).toNat : Nat) : Int) = p.KeyIndex key :=
    Int.toNat_of_nonneg h0
  have hklen : (p.KeyIndex key).toNat ≤ p.pairs.length := by
    rw [hsize] at hle
    omega
  have hkeys : ((p.Insert key value).1).keys
      = p.keys.take (p.KeyIndex key).toNat ++ key :: p.keys.drop (p.KeyIndex key).toNat := by
    show (p.pairs.take (p.KeyIndex key).toNat
        ++ (key, value) :: p.pairs.drop (p.KeyIndex key).toNat).map Prod.fst = _
    simp [LeafPage.keys, List.map_take, List.map_drop]
  show List.Sorted (· < ·) ((p.Insert key value).1).keys
  rw [hkeys]
  refine sorted_insert_list p.keys key (p.KeyIndex key).toNat hs
    (by rw [p.keys_length]; exact hklen) ?_ ?_ hfresh
  · intro j hj
    have hjlen : j < p.pairs.length := by omega
    have hjlt : (j : Int) < p.KeyIndex key := by omega
    rw [p.keys_getD j hjlen]
    exact hlo j hjlt
  · intro hklt
    rw [p.keys_length] at hklt
    have hsz : p.KeyIndex key < p.size := by
      rw [hsize]
      omega
    have h := hhi hsz
    rw [p.keys_getD _ hklt, hkcast]
    exact h

/-- C3: on a sorted page with `size < max_size` and a key not already
present, `Insert(key, value)` produces exactly the sorted insertion of
`(key, value)` into the pair sequence — the pairs at or after the insertion
position shifted one slot right with their relative order preserved, which
is `List.orderedInsert` on the key order — and returns the pre-call size
plus one; the result is again sorted. -/
theorem LeafPage.Insert_spec {α β : Type} [LinearOrder α] [Inhabited α] [Inhabited β]
    (p : LeafPage α β) (key : α) (value : β) (hs : p.SortedPage)
    (hcap : p.size < p.maxSize) (hfresh : key ∉ p.keys) :
    ((p.Insert key value).1).pairs
        = List.orderedInsert (fun x y => x.1 ≤ y.1) (key, value) p.pairs ∧
    ((p.Insert key value).1).SortedPage ∧
    (p.Insert key value).2 = p.size + 1 := by
  obtain ⟨h0, hle, hlo, hhi⟩ := p.keyIndex_props key hs
  have hsize : p.size = (p.pairs.length : Int) := rfl
  have hkcast : (((p.KeyIndex key).toNat : Nat) : Int) = p.KeyIndex key :=
    Int.toNat_of_nonneg h0
  have hklen : (p.KeyIndex key).toNat ≤ p.pairs.length := by
    rw [hsize] at hle
    omega
  refine ⟨?_, p.Insert_sorted key value hs hfresh, ?_⟩
  · rw [orderedInsert_eq_take_append_drop (fun x y : α × β => x.1 ≤ y.1) (key, value)
      p.pairs (p.KeyIndex key).toNat hklen ?_ ?_]
    · rfl
    · intro j hj
      have hjlt : (j : Int) < p.KeyIndex key := by omega
      have h := hlo j hjlt
      rw [p.keyAt_natCast] at h
      simpa using not_le_of_lt h
    · intro hklt
      have hsz : p.KeyIndex key < p.size := by
        rw [hsize]
        omega
      have h := hhi hsz
      rw [← hkcast, p.keyAt_natCast] at h
      simpa using h
  · show (((p.pairs.take (p.KeyIndex key).toNat
        ++ (key, value) :: p.pairs.drop (p.KeyIndex key).toNat).length : Nat) : Int)
      = p.size + 1
    rw [hsize]
    have hlen : (p.pairs.take (p.KeyIndex key).toNat
        ++ (key, value) :: p.pairs.drop (p.KeyIndex key).toNat).length
        = p.pairs.length + 1 := by
      simp [List.length_append, List.length_take, List.length_drop]
      omega
    rw [hlen]
    push_cast
    ring

theorem Insert_spec_witness :
    (samplePage.SortedPage ∧ samplePage.size < samplePage.maxSize ∧
      (25 : Int) ∉ samplePage.keys) ∧
    ((samplePage.Insert 25 250).1.pairs
        = List.orderedInsert (fun x y => x.1 ≤ y.1) ((25 : Int), (250 : Int)) samplePage.pairs ∧
      (samplePage.Insert 25 250).1.SortedPage ∧
      (samplePage.Insert 25 250).2 = samplePage.size + 1) :=
  ⟨⟨by decide, by decide, by decide⟩,
    LeafPage.Insert_spec samplePage 25 250 (by decide) (by decide) (by decide)⟩

theorem LeafPage.keyAt_inj {α β : Type} [LinearOrder α] [Inhabited α] [Inhabited β]
    {p : LeafPage α β} (hs : p.SortedPage) {i j : Nat}
    (hi : i < p.pairs.length) (hj : j < p.pairs.length)
    (h : p.keyAt i = p.keyAt j) : i = j := by
  rcases lt_trichotomy i j with hlt | heq | hgt
  · exact absurd h (ne_of_lt (LeafPage.sorted_keyAt_lt hs hlt hj))
  · exact heq
  · exact absurd h.symm (ne_of_lt (LeafPage.sorted_keyAt_lt hs hgt hi))

theorem LeafPage.keyIndex_eq_of_keyAt {α β : Type} [LinearOrder α] [Inhabited α] [Inhabited β]
    {p : LeafPage α β} (hs : p.SortedPage) {key : α} {i : Nat}
    (hi : i < p.pairs.length) (hk : p.keyAt i = key) :
    p.KeyIndex key = (i : Int) := by
  obtain ⟨h0, hle, hlo, hhi⟩ := p.keyIndex_props key hs
  have hsize : p.size = (p.pairs.length : Int) := rfl
  have hni : ¬ ((i : Int) < p.KeyIndex key) := by
    intro hlt
    exact absurd hk (ne_of_lt (hlo i hlt))
  have hksz : p.KeyIndex key < p.size := by
    rw [hsize]
    omega
  have h1 : key ≤ p.keyAt (p.KeyIndex key) := hhi hksz
  have hkcast : (((p.KeyIndex key).toNat : Nat) : Int) = p.KeyIndex key :=
    Int.toNat_of_nonneg h0
  have h2 : p.keyAt (p.KeyIndex key) ≤ p.keyAt i := by
    have h := LeafPage.sorted_keyAt_le hs
      (show (p.KeyIndex key).toNat ≤ i by omega) hi
    rwa [hkcast] at h
  have heq : p.keyAt (p.KeyIndex key) = key := le_antisymm (hk ▸ h2) h1
  have htn : (p.KeyIndex key).toNat = i := by
    apply LeafPage.keyAt_inj hs (by omega) hi
    rw [hkcast, heq, hk]
  omega

/-- C4: on a sorted, duplicate-free page, `Lookup(key)` returns `some v`
exactly when the pair `(key, v)` is stored in the page; in particular it
returns the stored value for a present key, and `none` for an absent one.
`Lookup` is embedded as a pure function on the page, so it cannot change
the page's pairs, size, or header fields. -/
theorem LeafPage.Lookup_spec {α β : Type} [LinearOrder α] [Inhabited α] [Inhabited β]
    (p : LeafPage α β) (key : α) (hs : p.SortedPage) :
    ∀ v : β, p.Lookup key = some v ↔ (key, v) ∈ p.pairs := by
  intro v
  have hsize : p.size = (p.pairs.length : Int) := rfl
  by_cases hc : p.KeyIndex key < p.size ∧ key = p.keyAt (p.KeyIndex key)
  · have hlk : p.Lookup key = some (p.valueAt (p.KeyIndex key)) := by
      simp only [LeafPage.Lookup]
      rw [if_pos hc]
    obtain ⟨h0, _, _, _⟩ := p.keyIndex_props key hs
    have hilen : (p.KeyIndex key).toNat < p.pairs.length := by
      have := hc.1
      rw [hsize] at this
      omega
    constructor
    · intro h
      rw [hlk] at h
      have hv : p.valueAt (p.KeyIndex key) = v := Option.some.inj h
      have hpair : (key, v) = p.pairs.getD (p.KeyIndex key).toNat default := by
        refine Prod.ext ?_ ?_
        · exact hc.2
        · exact hv.symm
      rw [hpair, List.getD_eq_getElem _ _ hilen]
      exact List.getElem_mem hilen
    · intro hmem
      rw [hlk]
      obtain ⟨i, hilen2, hpi⟩ := List.mem_iff_getElem.mp hmem
      have hki : p.keyAt i = key := by
        rw [p.keyAt_natCast, List.getD_eq_getElem _ _ hilen2, hpi]
      have hKI : p.KeyIndex key = (i : Int) :=
        LeafPage.keyIndex_eq_of_keyAt hs hilen2 hki
      rw [hKI]
      have hval : p.valueAt (i : Int) = v := by
        show (p.pairs.getD ((i : Int)).toNat default).2 = v
        rw [Int.toNat_natCast, List.getD_eq_getElem _ _ hilen2, hpi]
      rw [hval]
  · have hlk : p.Lookup key = none := by
      simp only [LeafPage.Lookup]
      rw [if_neg hc]
    constructor
    · intro h
      rw [hlk] at h
      exact absurd h (by simp)
    · intro hmem
      exfalso
      obtain ⟨i, hilen2, hpi⟩ := List.mem_iff_getElem.mp hmem
      have hki : p.keyAt i = key := by
        rw [p.keyAt_natCast, List.getD_eq_getElem _ _ hilen2, hpi]
      have hKI : p.KeyIndex key = (i : Int) :=
        LeafPage.keyIndex_eq_of_keyAt hs hilen2 hki
      refine hc ⟨?_, ?_⟩
      · rw [hKI, hsize]
        exact_mod_cast hilen2
      · rw [hKI]
        exact hki.symm

theorem Lookup_spec_witness :
    samplePage.SortedPage ∧
    (samplePage.Lookup 20 = some 200 ↔ ((20 : Int), (200 : Int)) ∈ samplePage.pairs) :=
  ⟨by decide, LeafPage.Lookup_spec samplePage 20 (by decide) 200⟩

/-- C5: on a sorted, duplicate-free page, `RemoveAndDeleteRecord(key)`
removes exactly the pair carrying a present key — the result is the
original sequence filtered of that key, i.e. all subsequent pairs shifted
one slot left with order preserved and sortedness kept — returning the
pre-call size minus one; for an absent key it returns the page completely
unchanged together with the unchanged size, so repeated calls with an
absent key are no-ops. -/
theorem LeafPage.RemoveAndDeleteRecord_spec {α β : Type} [LinearOrder α] [Inhabited α] [Inhabited β]
    (p : LeafPage α β) (key : α) (hs : p.SortedPage) :
    (key ∈ p.keys →
      ((p.RemoveAndDeleteRecord key).1).pairs
          = p.pairs.filter (fun x => decide (x.1 ≠ key)) ∧
      ((p.RemoveAndDeleteRecord key).1).SortedPage ∧
      (p.RemoveAndDeleteRecord key).2 = p.size - 1) ∧
    (key ∉ p.keys →
      (p.RemoveAndDeleteRecord key).1 = p ∧
      (p.RemoveAndDeleteRecord key).2 = p.size) := by
  have hsize : p.size = (p.pairs.length : Int) := rfl
  constructor
  · intro hmem
    obtain ⟨i, hilen', hki'⟩ := List.mem_iff_getElem.mp hmem
    have hilen : i < p.pairs.length := by
      rw [p.keys_length] at hilen'
      exact hilen'
    have hki : p.keyAt i = key := by
      rw [← p.keys_getD i hilen, List.getD_eq_getElem _ _ hilen', hki']
    have hKI : p.KeyIndex key = (i : Int) :=
      LeafPage.keyIndex_eq_of_keyAt hs hilen hki
    have hc : p.KeyIndex key < p.size ∧ key = p.keyAt (p.KeyIndex key) := by
      refine ⟨?_, ?_⟩
      · rw [hKI, hsize]
        exact_mod_cast hilen
      · rw [hKI]
        exact hki.symm
    have hres : ((p.RemoveAndDeleteRecord key).1).pairs
        = p.pairs.take i ++ p.pairs.drop (i + 1) := by
      simp only [LeafPage.RemoveAndDeleteRecord]
      rw [if_pos hc]
      simp only [hKI, Int.toNat_natCast]
    have hbefore : ∀ x ∈ p.pairs.take i, x.1 ≠ key := by
      intro x hx
      obtain ⟨j, hj, hxj⟩ := List.mem_iff_getElem.mp hx
      have hji : j < i := by
        have := List.length_take i p.pairs ▸ hj
        omega
      have hjlen : j < p.pairs.length := by omega
      have hlt : p.keyAt j < p.keyAt i :=
        LeafPage.sorted_keyAt_lt hs hji hilen
      rw [hki] at hlt
      have hxx : x.1 = p.keyAt j := by
        rw [← hxj, List.getElem_take, p.keyAt_natCast,
          List.getD_eq_getElem _ _ hjlen]
      rw [hxx]
      exact ne_of_lt hlt
    have hafter : ∀ x ∈ p.pairs.drop (i + 1), x.1 ≠ key := by
      intro x hx
      obtain ⟨j, hj, hxj⟩ := List.mem_iff_getElem.mp hx
      rw [List.length_drop] at hj
      have hjlen : i + 1 + j < p.pairs.length := by omega
      have hlt : p.keyAt i < p.keyAt ((i + 1 + j : Nat) : Int) :=
        LeafPage.sorted_keyAt_lt hs (by omega) hjlen
      rw [hki] at hlt
      have hxx : x.1 = p.keyAt ((i + 1 + j : Nat) : Int) := by
        rw [← hxj, List.getElem_drop, p.keyAt_natCast,
          List.getD_eq_getElem _ _ hjlen]
      rw [hxx]
      exact (ne_of_lt hlt).symm
    have hfilter : p.pairs.filter (fun x => decide (x.1 ≠ key))
        = p.pairs.take i ++ p.pairs.drop (i + 1) := by
      conv_lhs => rw [← List.take_append_drop i p.pairs,
        List.drop_eq_getElem_cons hilen]
      rw [List.filter_append]
      have h1 : (p.pairs.take i).filter (fun x => decide (x.1 ≠ key))
          = p.pairs.take i := by
        rw [List.filter_eq_self]
        intro a ha
        simpa using hbefore a ha
      have hkey : p.pairs[i].1 = key := by
        rw [← hki, p.keyAt_natCast, List.getD_eq_getElem _ _ hilen]
      have h2 : (p.pairs[i] :: p.pairs.drop (i + 1)).filter
          (fun x => decide (x.1 ≠ key)) = p.pairs.drop (i + 1) := by
        rw [List.filter_cons_of_neg (by simpa using hkey)]
        rw [List.filter_eq_self]
        intro a ha
        simpa using hafter a ha
      rw [h1, h2]
    refine ⟨by rw [hres, hfilter], ?_, ?_⟩
    · show List.Sorted (· < ·) ((p.RemoveAndDeleteRecord key).1).keys
      have hkeys : ((p.RemoveAndDeleteRecord key).1).keys
          = p.keys.take i ++ p.keys.drop (i + 1) := by
        show ((p.RemoveAndDeleteRecord key).1).pairs.map Prod.fst = _
        rw [hres]
        simp [LeafPage.keys, List.map_take, List.map_drop]
      rw [hkeys]
      exact List.Pairwise.sublist (eraseSlot_sublist p.keys i) hs
    · have hsnd : (p.RemoveAndDeleteRecord key).2
          = ((p.pairs.take i ++ p.pairs.drop (i + 1)).length : Int) := by
        simp only [LeafPage.RemoveAndDeleteRecord]
        rw [if_pos hc]
        simp only [hKI, Int.toNat_natCast]
        rfl
      rw [hsnd, hsize]
      have : (p.pairs.take i ++ p.pairs.drop (i + 1)).length
          = p.pairs.length - 1 := by
        simp [List.length_append, List.length_take, List.length_drop]
        omega
      rw [this]
      omega
  · intro hmem
    have hc : ¬ (p.KeyIndex key < p.size ∧ key = p.keyAt (p.KeyIndex key)) := by
      rintro ⟨h1, h2⟩
      obtain ⟨h0, _, _, _⟩ := p.keyIndex_props key hs
      have hilen : (p.KeyIndex key).toNat < p.pairs.length := by
        rw [hsize] at h1
        omega
      apply hmem
      have hkcast : (((p.KeyIndex key).toNat : Nat) : Int) = p.KeyIndex key :=
        Int.toNat_of_nonneg h0
      rw [h2, ← hkcast, ← p.keys_getD _ hilen,
        List.getD_eq_getElem _ _ (by rw [p.keys_length]; exact hilen)]
      exact List.getElem_mem _
    constructor
    · simp only [LeafPage.RemoveAndDeleteRecord]
      rw [if_neg hc]
    · simp only [LeafPage.RemoveAndDeleteRecord]
      rw [if_neg hc]

theorem RemoveAndDeleteRecord_spec_witness :
    samplePage.SortedPage ∧
    (((20 : Int) ∈ samplePage.keys →
      ((samplePage.RemoveAndDeleteRecord 20).1).pairs
          = samplePage.pairs.filter (fun x => decide (x.1 ≠ 20)) ∧
      ((samplePage.RemoveAndDeleteRecord 20).1).SortedPage ∧
      (samplePage.RemoveAndDeleteRecord 20).2 = samplePage.size - 1) ∧
    ((20 : Int) ∉ samplePage.keys →
      (samplePage.RemoveAndDeleteRecord 20).1 = samplePage ∧
      (samplePage.RemoveAndDeleteRecord 20).2 = samplePage.size)) :=
  ⟨by decide, LeafPage.RemoveAndDeleteRecord_spec samplePage 20 (by decide)⟩

/-- C6: splitting a sorted page of `n` pairs into a freshly initialized
empty recipient of the same `key_size` moves exactly `⌊n/2⌋` pairs — the
tail of the sequence — into the recipient, leaves this page with the lower
`⌈n/2⌉` pairs (so the middle element stays left when `n` is odd), conserves
the total pair count, keeps every left key `≤` every right key, and
concatenating left then right pairs reproduces the original sequence. -/
theorem LeafPage.MoveHalfTo_spec {α β : Type} [LinearOrder α] (p r : LeafPage α β)
    (hs : p.SortedPage) (hr : r.pairs = []) (hk : r.keySize = p.keySize) :
    ((p.MoveHalfTo r).2).pairs.length = p.pairs.length / 2 ∧
    ((p.MoveHalfTo r).1).pairs.length = (p.pairs.length + 1) / 2 ∧
    ((p.MoveHalfTo r).1).pairs.length + ((p.MoveHalfTo r).2).pairs.length
        = p.pairs.length ∧
    (∀ a ∈ ((p.MoveHalfTo r).1).keys, ∀ b ∈ ((p.MoveHalfTo r).2).keys, a ≤ b) ∧
    ((p.MoveHalfTo r).1).pairs ++ ((p.MoveHalfTo r).2).pairs = p.pairs := by
  have h1 : ((p.MoveHalfTo r).1).pairs
      = p.pairs.take (p.pairs.length - p.pairs.length / 2) := rfl
  have h2 : ((p.MoveHalfTo r).2).pairs
      = p.pairs.drop (p.pairs.length - p.pairs.length / 2) := by
    show r.pairs ++ p.pairs.drop _ = _
    rw [hr, List.nil_append]
  have hc : p.pairs.length - p.pairs.length / 2 ≤ p.pairs.length := by omega
  refine ⟨?_, ?_, ?_, ?_, ?_⟩
  · rw [h2, List.length_drop]
    omega
  · rw [h1, List.length_take]
    omega
  · rw [h1, h2, List.length_take, List.length_drop]
    omega
  · intro a ha b hb
    have hk1 : ((p.MoveHalfTo r).1).keys
        = p.keys.take (p.pairs.length - p.pairs.length / 2) := by
      show ((p.MoveHalfTo r).1).pairs.map Prod.fst = _
      rw [h1]
      simp [LeafPage.keys, List.map_take]
    have hk2 : ((p.MoveHalfTo r).2).keys
        = p.keys.drop (p.pairs.length - p.pairs.length / 2) := by
      show ((p.MoveHalfTo r).2).pairs.map Prod.fst = _
      rw [h2]
      simp [LeafPage.keys, List.map_drop]
    rw [hk1] at ha
    rw [hk2] at hb
    exact le_of_lt (sorted_take_lt_drop hs _ a ha b hb)
  · rw [h1, h2, List.take_append_drop]

theorem MoveHalfTo_spec_witness :
    (samplePage.SortedPage ∧ (LeafPage.Init 2 (-1) 4 4 : LeafPage Int Int).pairs = [] ∧
      (LeafPage.Init 2 (-1) 4 4 : LeafPage Int Int).keySize = samplePage.keySize) ∧
    (((samplePage.MoveHalfTo (LeafPage.Init 2 (-1) 4 4)).2).pairs.length
        = samplePage.pairs.length / 2 ∧
      ((samplePage.MoveHalfTo (LeafPage.Init 2 (-1) 4 4)).1).pairs.length
        = (samplePage.pairs.length + 1) / 2 ∧
      ((samplePage.MoveHalfTo (LeafPage.Init 2 (-1) 4 4)).1).pairs.length
          + ((samplePage.MoveHalfTo (LeafPage.Init 2 (-1) 4 4)).2).pairs.length
        = samplePage.pairs.length ∧
      (∀ a ∈ ((samplePage.MoveHalfTo (LeafPage.Init 2 (-1) 4 4)).1).keys,
        ∀ b ∈ ((samplePage.MoveHalfTo (LeafPage.Init 2 (-1) 4 4)).2).keys, a ≤ b) ∧
      ((samplePage.MoveHalfTo (LeafPage.Init 2 (-1) 4 4)).1).pairs
          ++ ((samplePage.MoveHalfTo (LeafPage.Init 2 (-1) 4 4)).2).pairs
        = samplePage.pairs) :=
  ⟨⟨by decide, by decide, by decide⟩,
    LeafPage.MoveHalfTo_spec samplePage (LeafPage.Init 2 (-1) 4 4)
      (by decide) (by decide) (by decide)⟩

/-- C7: merging into the immediate left sibling — a sorted recipient all of
whose keys precede this page's keys, with combined size within capacity —
appends all of this page's pairs in order to the recipient, copies this
page's `next_page_id` into the recipient, and empties this page; afterwards
the recipient's size is the sum of the two pre-call sizes and the
recipient's pairs are sorted. -/
theorem LeafPage.MoveAllTo_spec {α β : Type} [LinearOrder α] (p r : LeafPage α β)
    (hsp : p.SortedPage) (hsr : r.SortedPage)
    (hord : ∀ a ∈ r.keys, ∀ b ∈ p.keys, a < b)
    (hcap : r.size + p.size ≤ r.maxSize) :
    ((p.MoveAllTo r).2).pairs = r.pairs ++ p.pairs ∧
    ((p.MoveAllTo r).2).nextPageId = p.nextPageId ∧
    ((p.MoveAllTo r).1).pairs = [] ∧
    ((p.MoveAllTo r).2).size = r.size + p.size ∧
    ((p.MoveAllTo r).2).SortedPage := by
  refine ⟨rfl, rfl, rfl, ?_, ?_⟩
  · show (((r.pairs ++ p.pairs).length : Nat) : Int) = r.size + p.size
    rw [List.length_append]
    push_cast
    rfl
  · show List.Sorted (· < ·) ((p.MoveAllTo r).2).keys
    have hkeys : ((p.MoveAllTo r).2).keys = r.keys ++ p.keys := by
      simp [LeafPage.keys, LeafPage.MoveAllTo, LeafPage.CopyNFrom]
    rw [hkeys]
    exact List.pairwise_append.mpr ⟨hsr, hsp, hord⟩

/-- A concrete one-pair left-sibling page (all keys below `samplePage`'s)
used by the witness theorems. -/
def leftSiblingPage : LeafPage Int Int :=
  { pageType := .leafPage
    pageId := 3
    parentPageId := -1
    keySize := 4
    maxSize := 4
    nextPageId := 1
    pairs := [(1, 11)] }

theorem MoveAllTo_spec_witness :
    (samplePage.SortedPage ∧ leftSiblingPage.SortedPage ∧
      (∀ a ∈ leftSiblingPage.keys, ∀ b ∈ samplePage.keys, a < b) ∧
      leftSiblingPage.size + samplePage.size ≤ leftSiblingPage.maxSize) ∧
    (((samplePage.MoveAllTo leftSiblingPage).2).pairs
        = leftSiblingPage.pairs ++ samplePage.pairs ∧
      ((samplePage.MoveAllTo leftSiblingPage).2).nextPageId = samplePage.nextPageId ∧
      ((samplePage.MoveAllTo leftSiblingPage).1).pairs = [] ∧
      ((samplePage.MoveAllTo leftSiblingPage).2).size
        = leftSiblingPage.size + samplePage.size ∧
      ((samplePage.MoveAllTo leftSiblingPage).2).SortedPage) :=
  ⟨⟨by decide, by decide, by decide, by decide⟩,
    LeafPage.MoveAllTo_spec samplePage leftSiblingPage
      (by decide) (by decide) (by decide) (by decide)⟩

/-- C8: redistribution with a non-empty sorted source and a sorted
recipient below capacity.  With the recipient as left sibling,
`MoveFirstToEndOf` removes the source's lowest pair (its head) and appends
exactly that pair to the recipient's end; with the recipient as right
sibling, `MoveLastToFrontOf` removes the source's highest pair (its last)
and inserts exactly that pair at the recipient's front, shifting the
recipient's pairs right by one.  Either way the source shrinks by one, the
recipient grows by one (total pair count conserved), and both pages stay
individually sorted. -/
theorem LeafPage.redistribute_spec {α β : Type} [LinearOrder α] [Inhabited α] [Inhabited β]
    (p r : LeafPage α β) (hp : p.pairs ≠ [])
    (hsp : p.SortedPage) (hsr : r.SortedPage) (hcap : r.size < r.maxSize) :
    ((∀ a ∈ r.keys, ∀ b ∈ p.keys, a < b) →
      ((p.MoveFirstToEndOf r).2).pairs = r.pairs ++ [p.pairs.head hp] ∧
      ((p.MoveFirstToEndOf r).1).pairs = p.pairs.tail ∧
      ((p.MoveFirstToEndOf r).1).size = p.size - 1 ∧
      ((p.MoveFirstToEndOf r).2).size = r.size + 1 ∧
      ((p.MoveFirstToEndOf r).1).SortedPage ∧
      ((p.MoveFirstToEndOf r).2).SortedPage) ∧
    ((∀ a ∈ p.keys, ∀ b ∈ r.keys, a < b) →
      ((p.MoveLastToFrontOf r).2).pairs = p.pairs.getLast hp :: r.pairs ∧
      ((p.MoveLastToFrontOf r).1).pairs = p.pairs.dropLast ∧
      ((p.MoveLastToFrontOf r).1).size = p.size - 1 ∧
      ((p.MoveLastToFrontOf r).2).size = r.size + 1 ∧
      ((p.MoveLastToFrontOf r).1).SortedPage ∧
      ((p.MoveLastToFrontOf r).2).SortedPage) := by
  have hsize : p.size = (p.pairs.length : Int) := rfl
  have hrsize : r.size = (r.pairs.length : Int) := rfl
  have hlen0 : 0 < p.pairs.length := List.length_pos.mpr hp
  constructor
  · intro hord
    have hpair0 : ((p.keyAt 0, p.valueAt 0) : α × β) = p.pairs.head hp := by
      obtain ⟨x, t, hxt⟩ := List.exists_cons_of_ne_nil hp
      simp [LeafPage.keyAt, LeafPage.valueAt, hxt]
    have hk0 : p.keyAt 0 = (p.pairs.head hp).1 := congrArg Prod.fst hpair0
    have h2 : ((p.MoveFirstToEndOf r).2).pairs
        = r.pairs ++ [(p.keyAt 0, p.valueAt 0)] := rfl
    have h1 : ((p.MoveFirstToEndOf r).1).pairs = p.pairs.drop 1 := rfl
    refine ⟨by rw [h2, hpair0], by rw [h1, List.drop_one], ?_, ?_, ?_, ?_⟩
    · show ((p.pairs.drop 1).length : Int) = p.size - 1
      rw [List.length_drop, hsize]
      omega
    · show (((r.pairs ++ [(p.keyAt 0, p.valueAt 0)]).length : Nat) : Int) = r.size + 1
      rw [List.length_append, List.length_singleton, hrsize]
      push_cast
      ring
    · show List.Sorted (· < ·) ((p.MoveFirstToEndOf r).1).keys
      have hsub : ((p.MoveFirstToEndOf r).1).keys.Sublist p.keys := by
        rw [show ((p.MoveFirstToEndOf r).1).keys = (p.pairs.drop 1).map Prod.fst from rfl]
        exact List.Sublist.map Prod.fst (List.drop_sublist 1 p.pairs)
      exact List.Pairwise.sublist hsub hsp
    · show List.Sorted (· < ·) ((p.MoveFirstToEndOf r).2).keys
      have hkeys : ((p.MoveFirstToEndOf r).2).keys = r.keys ++ [p.keyAt 0] := by
        show (r.pairs ++ [(p.keyAt 0, p.valueAt 0)]).map Prod.fst = _
        simp [LeafPage.keys]
      rw [hkeys]
      refine List.pairwise_append.mpr ⟨hsr, List.pairwise_singleton _ _, ?_⟩
      intro a ha b hb
      rcases List.mem_singleton.mp hb with rfl
      have hmem : p.keyAt 0 ∈ p.keys := by
        rw [hk0]
        exact List.mem_map_of_mem Prod.fst (List.head_mem hp)
      exact hord a ha _ hmem
  · intro hord
    have htn : (p.size - 1).toNat = p.pairs.length - 1 := by
      rw [hsize]
      omega
    have hlt : p.pairs.length - 1 < p.pairs.length := by omega
    have hpairL : ((p.keyAt (p.size - 1), p.valueAt (p.size - 1)) : α × β)
        = p.pairs.getLast hp := by
      rw [List.getLast_eq_getElem]
      refine Prod.ext ?_ ?_
      · show (p.pairs.getD (p.size - 1).toNat default).1 = _
        rw [htn, List.getD_eq_getElem _ _ hlt]
      · show (p.pairs.getD (p.size - 1).toNat default).2 = _
        rw [htn, List.getD_eq_getElem _ _ hlt]
    have hkL : p.keyAt (p.size - 1) = (p.pairs.getLast hp).1 :=
      congrArg Prod.fst hpairL
    have h2 : ((p.MoveLastToFrontOf r).2).pairs
        = (p.keyAt (p.size - 1), p.valueAt (p.size - 1)) :: r.pairs := rfl
    have h1 : ((p.MoveLastToFrontOf r).1).pairs = p.pairs.dropLast := rfl
    refine ⟨by rw [h2, hpairL], h1, ?_, ?_, ?_, ?_⟩
    · show ((p.pairs.dropLast.length : Nat) : Int) = p.size - 1
      rw [List.length_dropLast, hsize]
      omega
    · show ((((p.keyAt (p.size - 1), p.valueAt (p.size - 1)) :: r.pairs).length : Nat) : Int)
          = r.size + 1
      rw [List.length_cons, hrsize]
      push_cast
      ring
    · show List.Sorted (· < ·) ((p.MoveLastToFrontOf r).1).keys
      have hsub : ((p.MoveLastToFrontOf r).1).keys.Sublist p.keys := by
        rw [show ((p.MoveLastToFrontOf r).1).keys = p.pairs.dropLast.map Prod.fst from rfl]
        exact List.Sublist.map Prod.fst (List.dropLast_sublist p.pairs)
      exact List.Pairwise.sublist hsub hsp
    · show List.Sorted (· < ·) ((p.MoveLastToFrontOf r).2).keys
      have hkeys : ((p.MoveLastToFrontOf r).2).keys
          = p.keyAt (p.size - 1) :: r.keys := by
        show ((p.keyAt (p.size - 1), p.valueAt (p.size - 1)) :: r.pairs).map Prod.fst = _
        simp [LeafPage.keys]
      rw [hkeys]
      refine List.pairwise_cons.mpr ⟨?_, hsr⟩
      intro b hb
      have hmem : p.keyAt (p.size - 1) ∈ p.keys := by
        rw [hkL]
        exact List.mem_map_of_mem Prod.fst (List.getLast_mem hp)
      exact hord _ hmem b hb

theorem redistribute_spec_witness :
    (samplePage.pairs ≠ [] ∧ samplePage.SortedPage ∧ leftSiblingPage.SortedPage ∧
      leftSiblingPage.size < leftSiblingPage.maxSize) ∧
    (((∀ a ∈ leftSiblingPage.keys, ∀ b ∈ samplePage.keys, a < b) →
      ((samplePage.MoveFirstToEndOf leftSiblingPage).2).pairs
          = leftSiblingPage.pairs ++ [samplePage.pairs.head (by decide)] ∧
      ((samplePage.MoveFirstToEndOf leftSiblingPage).1).pairs = samplePage.pairs.tail ∧
      ((samplePage.MoveFirstToEndOf leftSiblingPage).1).size = samplePage.size - 1 ∧
      ((samplePage.MoveFirstToEndOf leftSiblingPage).2).size = leftSiblingPage.size + 1 ∧
      ((samplePage.MoveFirstToEndOf leftSiblingPage).1).SortedPage ∧
      ((samplePage.MoveFirstToEndOf leftSiblingPage).2).SortedPage) ∧
    ((∀ a ∈ samplePage.keys, ∀ b ∈ leftSiblingPage.keys, a < b) →
      ((samplePage.MoveLastToFrontOf leftSiblingPage).2).pairs
          = samplePage.pairs.getLast (by decide) :: leftSiblingPage.pairs ∧
      ((samplePage.MoveLastToFrontOf leftSiblingPage).1).pairs = samplePage.pairs.dropLast ∧
      ((samplePage.MoveLastToFrontOf leftSiblingPage).1).size = samplePage.size - 1 ∧
      ((samplePage.MoveLastToFrontOf leftSiblingPage).2).size = leftSiblingPage.size + 1 ∧
      ((samplePage.MoveLastToFrontOf leftSiblingPage).1).SortedPage ∧
      ((samplePage.MoveLastToFrontOf leftSiblingPage).2).SortedPage)) :=
  ⟨⟨by decide, by decide, by decide, by decide⟩,
    LeafPage.redistribute_spec samplePage leftSiblingPage (by decide)
      (by decide) (by decide) (by decide)⟩

theorem LeafPage.remove_sorted {α β : Type} [LinearOrder α] [Inhabited α] [Inhabited β]
    (p : LeafPage α β) (key : α) (hs : p.SortedPage) :
    ((p.RemoveAndDeleteRecord key).1).SortedPage := by
  by_cases hc : p.KeyIndex key < p.size ∧ key = p.keyAt (p.KeyIndex key)
  · have hres : ((p.RemoveAndDeleteRecord key).1).pairs
        = p.pairs.take (p.KeyIndex key).toNat
          ++ p.pairs.drop ((p.KeyIndex key).toNat + 1) := by
      simp only [LeafPage.RemoveAndDeleteRecord]
      rw [if_pos hc]
    show List.Sorted (· < ·) ((p.RemoveAndDeleteRecord key).1).keys
    have hkeys : ((p.RemoveAndDeleteRecord key).1).keys
        = p.keys.take (p.KeyIndex key).toNat
          ++ p.keys.drop ((p.KeyIndex key).toNat + 1) := by
      show ((p.RemoveAndDeleteRecord key).1).pairs.map Prod.fst = _
      rw [hres]
      simp [LeafPage.keys, List.map_take, List.map_drop]
    rw [hkeys]
    exact List.Pairwise.sublist (eraseSlot_sublist p.keys _) hs
  · have hres : (p.RemoveAndDeleteRecord key).1 = p := by
      simp only [LeafPage.RemoveAndDeleteRecord]
      rw [if_neg hc]
    rw [hres]
    exact hs

theorem LeafPage.sorted_applyOps {α β : Type} [LinearOrder α] [Inhabited α] [Inhabited β] :
    ∀ (ops : List (PageOp α β)) (p : LeafPage α β),
      p.SortedPage → p.freshGuardedRun ops → (p.applyOps ops).SortedPage := by
  intro ops
  induction ops with
  | nil =>
    intro p hp _
    exact hp
  | cons op rest ih =>
    intro p hp hg
    cases op with
    | insert k v =>
      obtain ⟨hcap, hfresh, hrest⟩ := hg
      exact ih _ (p.Insert_sorted k v hp hfresh) hrest
    | remove k =>
      exact ih _ (p.remove_sorted k hp) hg

/-- C1 counterexample: the claim fails as stated.  From a freshly
initialized page with `max_size = 4`, the two-insert sequence
`Insert(20, 5); Insert(20, 6)` performs every `Insert` while
`size < max_size`, yet the resulting page stores the key `20` twice, so its
pairs are not strictly ascending.  (`LeafPage::Insert` never compares the
new key for equality with the key at the insertion slot, so it inserts a
duplicate in front of the existing equal key.) -/
theorem insert_duplicate_breaks_sortedness :
    (LeafPage.Init 1 (-1) 4 4 : LeafPage Int Int).guardedRun
        [PageOp.insert 20 5, PageOp.insert 20 6] ∧
    ((LeafPage.Init 1 (-1) 4 4 : LeafPage Int Int).applyOps
        [PageOp.insert 20 5, PageOp.insert 20 6]).pairs = [(20, 6), (20, 5)] ∧
    ¬ ((LeafPage.Init 1 (-1) 4 4 : LeafPage Int Int).applyOps
        [PageOp.insert 20 5, PageOp.insert 20 6]).SortedPage :=
  ⟨⟨by decide, by decide, trivial⟩, by decide, by decide⟩

/-- C1 (amended): for every sequence of `Insert` and
`RemoveAndDeleteRecord` calls starting from a freshly initialized page, in
which every `Insert` is performed while `size < max_size` *and with a key
not currently present in the page*, the resulting pairs are strictly
ascending in comparator order with no duplicate keys at every observation
point (the run of every such guarded sequence, hence of each of its
prefixes, ends sorted); in particular a single `Insert` of a not-present
key on a sorted, duplicate-free page never creates a duplicate key. -/
theorem sorted_invariant_of_freshGuardedRun {α β : Type}
    [LinearOrder α] [Inhabited α] [Inhabited β]
    (pageId parentId keySize maxSize : Int) (ops : List (PageOp α β))
    (hg : (LeafPage.Init pageId parentId keySize maxSize : LeafPage α β).freshGuardedRun ops) :
    ((LeafPage.Init pageId parentId keySize maxSize : LeafPage α β).applyOps ops).SortedPage := by
  refine LeafPage.sorted_applyOps ops _ ?_ hg
  show List.Sorted (· < ·) ((LeafPage.Init pageId parentId keySize maxSize
      : LeafPage α β).keys)
  simp [LeafPage.Init, LeafPage.keys]

theorem sorted_invariant_of_freshGuardedRun_witness :
    (LeafPage.Init 1 (-1) 4 4 : LeafPage Int Int).freshGuardedRun
        [PageOp.insert 20 5, PageOp.insert 10 6, PageOp.remove 20] ∧
    ((LeafPage.Init 1 (-1) 4 4 : LeafPage Int Int).applyOps
        [PageOp.insert 20 5, PageOp.insert 10 6, PageOp.remove 20]).SortedPage := by
  have hg : (LeafPage.Init 1 (-1) 4 4 : LeafPage Int Int).freshGuardedRun
      [PageOp.insert 20 5, PageOp.insert 10 6, PageOp.remove 20] :=
    ⟨by decide, by decide, by decide, by decide, trivial⟩
  exact ⟨hg, sorted_invariant_of_freshGuardedRun 1 (-1) 4 4 _ hg⟩

/-- The round-trip scenario's page after `Init(1, -1, 4, 4)` and inserting
keys 30, 10, 20 with distinct values. -/
def roundTripP3 : LeafPage Int Int :=
  ((((LeafPage.Init 1 (-1) 4 4 : LeafPage Int Int).Insert 30 300).1.Insert
      10 100).1.Insert 20 200).1

/-- The scenario page after additionally inserting key 40. -/
def roundTripP4 : LeafPage Int Int := (roundTripP3.Insert 40 400).1

/-- The freshly initialized right page the scenario splits into. -/
def roundTripFresh : LeafPage Int Int := LeafPage.Init 2 (-1) 4 4

/-- The scenario's (left, right) pages after `MoveHalfTo` and the
spec-modelled sibling-chain splice by the tree driver. -/
def roundTripFinal : LeafPage Int Int × LeafPage Int Int :=
  (roundTripP4.MoveHalfTo roundTripFresh).1.spliceAfterSplit
    (roundTripP4.MoveHalfTo roundTripFresh).2

/-- C9: the concrete round-trip scenario.  After `Init(key_size = 4,
max_size = 4)` and inserting keys 30, 10, 20, the three lookups succeed
with their values and `KeyIndex(25) = 2`; after inserting key 40 (size now
4) and splitting via `MoveHalfTo` into a fresh right page — with the
sibling-chain splice that the spec assigns to the tree driver — the left
page holds exactly keys 10, 20 and the right page exactly keys 30, 40, the
right page's `next_page_id` equals the original page's `next_page_id`, and
the left page's `next_page_id` points to the right page. -/
theorem roundTrip_scenario :
    roundTripP3.Lookup 10 = some 100 ∧
    roundTripP3.Lookup 20 = some 200 ∧
    roundTripP3.Lookup 30 = some 300 ∧
    roundTripP3.KeyIndex 25 = 2 ∧
    roundTripP4.size = 4 ∧
    roundTripFinal.1.pairs = [(10, 100), (20, 200)] ∧
    roundTripFinal.2.pairs = [(30, 300), (40, 400)] ∧
    roundTripFinal.2.nextPageId = roundTripP4.nextPageId ∧
    roundTripFinal.1.nextPageId = roundTripFinal.2.pageId := by
  decide

/-- C10: `MoveHalfTo` modifies only the pair region and size of the two
pages.  Neither page's `next_page_id`, `page_id`, `parent_page_id`,
`key_size`, `max_size` (or page-type tag) changes: the recipient keeps the
`next_page_id` it had (e.g. from `Init`), and the source still points at
its pre-split successor — splicing the sibling chain is entirely the
caller's job. -/
theorem MoveHalfTo_frame {α β : Type} (p r : LeafPage α β) :
    ((p.MoveHalfTo r).1).nextPageId = p.nextPageId ∧
    ((p.MoveHalfTo r).1).pageId = p.pageId ∧
    ((p.MoveHalfTo r).1).parentPageId = p.parentPageId ∧
    ((p.MoveHalfTo r).1).keySize = p.keySize ∧
    ((p.MoveHalfTo r).1).maxSize = p.maxSize ∧
    ((p.MoveHalfTo r).1).pageType = p.pageType ∧
    ((p.MoveHalfTo r).2).nextPageId = r.nextPageId ∧
    ((p.MoveHalfTo r).2).pageId = r.pageId ∧
    ((p.MoveHalfTo r).2).parentPageId = r.parentPageId ∧
    ((p.MoveHalfTo r).2).keySize = r.keySize ∧
    ((p.MoveHalfTo r).2).maxSize = r.maxSize ∧
    ((p.MoveHalfTo r).2).pageType = r.pageType :=
  ⟨rfl, rfl, rfl, rfl, rfl, rfl, rfl, rfl, rfl, rfl, rfl, rfl⟩
